import Mathlib

set_option maxRecDepth 8192

/-!
Verification of the timeblocking generator
(`scripts/generate_timeblocking.mjs`).

The script fetches a list of gigs, derives the busy minute-intervals of each
of the next 7 days (Mon-Fri only), resolves a morning window starting at
08:30, subtracts the busy set and greedily packs three prioritized work
blocks into the remaining free intervals, then serializes the result as an
ICS text.

Shallow embedding conventions:
* times of day and interval endpoints are `Nat` minutes; all JS arithmetic
  on them in the script stays in small non-negative ranges except where
  noted, and where a JS subtraction can go negative before a clamp to 0 the
  `Nat` truncated subtraction agrees with the clamp (noted at `bufferGig`);
  the one signed comparison (interval length vs needed minutes in
  `scheduleBlocks`) is modelled over `Int` exactly as written;
* the anchor day `data.server_date` (a well-formed YYYY-MM-DD string) is
  modelled as its numeric triple (y, m, d); `Date.UTC` / `getUTCDate` /
  `getUTCDay` arithmetic is modelled by the standard Gregorian
  days-from-civil / civil-from-days functions (days counted from
  1970-01-01, weekday = (days + 4) % 7, as the ECMAScript UTC date model
  prescribes for the post-1970 dates this program handles);
* a gig object is its `date` and `time` string fields; a missing (null /
  undefined) field is modelled as the empty string, which the script also
  treats as absent (both are falsy in `!g?.date || !g?.time`);
* the event records additionally carry ghost fields (`key`, `startMin`,
  `endMin`, `ymd`, `epochDay`) recording the block key, the minute values
  `startMin` / `endMin` the script computes locally before formatting them
  into the event strings, and the day the event was produced for; they are
  determined by the same data the string fields are built from;
* exceptions (`throw new Error`) are modelled by `Except Unit`; the output
  file write happens after `buildIcs`, so a run that errors produces no
  output text.
-/

/-! ## Constants (top of the script) -/

def TZID : String := "Asia/Dubai"

/-- Default of `process.env.DJ ?? "javi"`. -/
def DJ : String := "javi"

/-- Default of `Number(process.env.DAYS ?? 7)`. -/
def DAYS : Nat := 7

def BREAKFAST_END : String := "08:30"

def DEFAULT_END : String := "13:00"

def BREAK_MIN : Nat := 15

structure WorkBlock where
  key : String
  title : String
  minutes : Nat
deriving Repr, DecidableEq

def BLOCKS : List WorkBlock :=
  [ { key := "music", title := "Música (escuchar/descargar)", minutes := 30 },
    { key := "nibango", title := "Nibango (deep work)", minutes := 90 },
    { key := "youtube", title := "YouTube (vídeo viernes)", minutes := 60 } ]

/-! ## String / number helpers

The script only ever splits on the single characters ':' and '-', trims
ASCII whitespace, and converts plain digit strings with `Number`; these are
modelled structurally over the character list of the string. -/

def digitVal (c : Char) : Nat := c.toNat - 48

def natOfDigits : List Char → Nat → Nat
  | [], acc => acc
  | c :: rest, acc => natOfDigits rest (acc * 10 + digitVal c)

/-- Model of `Number(s)` restricted to the plain digit strings this script
feeds it (date and time components); a non-numeric string maps to 0. -/
def jsNat (s : String) : Nat :=
  if s.data ≠ [] ∧ s.data.all Char.isDigit then natOfDigits s.data 0 else 0

/-- `s.split(sep)` for a one-character separator. -/
def splitOnChar (sep : Char) : List Char → List (List Char)
  | [] => [[]]
  | c :: rest =>
    let r := splitOnChar sep rest
    if c = sep then [] :: r else (c :: r.headD []) :: r.tail

def jsSplit (sep : Char) (s : String) : List String :=
  (splitOnChar sep s.data).map String.mk

/-- `s.trim()` (ASCII whitespace at both ends). -/
def jsTrim (s : String) : String :=
  String.mk (((s.data.dropWhile Char.isWhitespace).reverse.dropWhile
    Char.isWhitespace).reverse)

/-- `String(n).padStart(2, "0")`. -/
def pad2 (n : Nat) : String :=
  let s := toString n
  if s.length < 2 then "0" ++ s else s

/-- `ymdToDateParts`: split a YYYY-MM-DD string on "-" and read the parts. -/
def ymdToDateParts (ymd : String) : Nat × Nat × Nat :=
  let p := jsSplit '-' ymd
  (jsNat (p.getD 0 ""), jsNat (p.getD 1 ""), jsNat (p.getD 2 ""))

/-- `hmToMinutes`: split "HH:MM" on ":" and return h * 60 + m. -/
def hmToMinutes (hm : String) : Nat :=
  let p := jsSplit ':' hm
  jsNat (p.getD 0 "") * 60 + jsNat (p.getD 1 "")

/-- `minutesToHm`. -/
def minutesToHm (min : Nat) : String :=
  pad2 (min / 60) ++ ":" ++ pad2 (min % 60)

/-- `clamp(n, a, b) = Math.max(a, Math.min(b, n))`. -/
def clamp (n a b : Nat) : Nat := max a (min b n)

/-! ## Gregorian day arithmetic (model of the `Date.UTC` calls)

`addDaysYmd` builds a UTC `Date` from a (y, m, d) triple, adds days with
`setUTCDate`, and reads the components back; `weekdayIndexUTC` reads
`getUTCDay`. ECMAScript UTC dates are days on the proleptic Gregorian
calendar counted from 1970-01-01 (a Thursday). -/

/-- Days since 1970-01-01 of Gregorian date y-m-d (dates from 1970 on). -/
def daysFromCivil (y m d : Nat) : Nat :=
  let y2 := if m ≤ 2 then y - 1 else y
  let era := y2 / 400
  let yoe := y2 % 400
  let mp := if m ≤ 2 then m + 9 else m - 3
  let doy := (153 * mp + 2) / 5 + d - 1
  let doe := yoe * 365 + yoe / 4 - yoe / 100 + doy
  era * 146097 + doe - 719468

/-- Gregorian date (y, m, d) of a day count since 1970-01-01. -/
def civilFromDays (z : Nat) : Nat × Nat × Nat :=
  let z2 := z + 719468
  let era := z2 / 146097
  let doe := z2 % 146097
  let yoe := (doe - doe / 1460 + doe / 36524 - doe / 146096) / 365
  let y := yoe + era * 400
  let doy := doe - (365 * yoe + yoe / 4 - yoe / 100)
  let mp := (5 * doy + 2) / 153
  let d := doy - (153 * mp + 2) / 5 + 1
  let m := if mp < 10 then mp + 3 else mp - 9
  (if m ≤ 2 then y + 1 else y, m, d)

/-- The `${y}-${pad2(m)}-${pad2(d)}` string `addDaysYmd` returns. -/
def formatYmd (y m d : Nat) : String :=
  toString y ++ "-" ++ pad2 m ++ "-" ++ pad2 d

/-- Epoch-day number of the i-th projected day of a run anchored at y-m-d. -/
def dayNumber (y m d i : Nat) : Nat := daysFromCivil y m d + i

/-- `addDaysYmd(today, i)`: the date string of the i-th projected day. -/
def dayDateStr (y m d i : Nat) : String :=
  let c := civilFromDays (dayNumber y m d i)
  formatYmd c.1 c.2.1 c.2.2

/-- `weekdayIndexUTC(addDaysYmd(today, i))`: the string is parsed back into
a date and `getUTCDay` is read (0 = Sunday .. 6 = Saturday). -/
def dayDow (y m d i : Nat) : Nat :=
  let c := civilFromDays (dayNumber y m d i)
  (daysFromCivil c.1 c.2.1 c.2.2 + 4) % 7

/-! ## The 12-hour time parser (`parseTime12h`, `parseRange`)

`parseTime12h` trims its input and matches it against the regular
expression `^(\d{1,2}):(\d{2})\s*(AM|PM)$` (case-insensitive), then maps
12 AM to hour 0 and adds 12 to PM hours other than 12. The matcher below
is the deterministic equivalent of that anchored regex: since a digit
never equals ':', the greedy `\d{1,2}` needs no backtracking, and since
the character after `\s*` must be a meridiem letter, consuming the maximal
whitespace run is equivalent. -/

/-- Matches `:(\d{2})\s*(AM|PM)$` after the hour; yields (hh, mm, isPM). -/
def matchAfterHour (hh : Nat) : List Char → Option (Nat × Nat × Bool)
  | ':' :: m1 :: m2 :: rest =>
    if m1.isDigit && m2.isDigit then
      match rest.dropWhile Char.isWhitespace with
      | [a, mChar] =>
        let mm := digitVal m1 * 10 + digitVal m2
        if (a = 'A' ∨ a = 'a') ∧ (mChar = 'M' ∨ mChar = 'm') then some (hh, mm, false)
        else if (a = 'P' ∨ a = 'p') ∧ (mChar = 'M' ∨ mChar = 'm') then some (hh, mm, true)
        else none
      | _ => none
    else none
  | _ => none

/-- Matches `^(\d{1,2})` then hands over to `matchAfterHour`. -/
def matchTime : List Char → Option (Nat × Nat × Bool)
  | c1 :: c2 :: rest =>
    if c1.isDigit then
      if c2.isDigit then matchAfterHour (digitVal c1 * 10 + digitVal c2) rest
      else matchAfterHour (digitVal c1) (c2 :: rest)
    else none
  | _ => none

/-- `parseTime12h(s)`: minutes pair (hh, mm) after the AM/PM adjustment, or
`none` where the script throws `Bad time`. -/
def parseTime12h (s : String) : Option (Nat × Nat) :=
  match matchTime (jsTrim s).data with
  | none => none
  | some (hh, mm, isPM) =>
    if isPM then (if hh = 12 then some (hh, mm) else some (hh + 12, mm))
    else (if hh = 12 then some (0, mm) else some (hh, mm))

/-- `parseRange(range)`: split on "-", trim, require exactly two parts,
parse both; `none` where the script throws. -/
def parseRange (range : String) : Option ((Nat × Nat) × (Nat × Nat)) :=
  match (jsSplit '-' range).map jsTrim with
  | [a, b] =>
    match parseTime12h a, parseTime12h b with
    | some x, some y => some (x, y)
    | _, _ => none
  | _ => none

/-! ## Interval primitives -/

/-- A (startMin, endMin) pair. -/
abbrev Iv := Nat × Nat

/-- The minute set of an interval list: m lies in some member. -/
def covers (l : List Iv) (m : Nat) : Prop := ∃ p ∈ l, p.1 ≤ m ∧ m < p.2

/-- The accumulating walk of `mergeIntervals`: `cur` is the last element of
the `merged` array (the only one the loop ever mutates); pushing a new
element corresponds to emitting `cur`. -/
def mergeAux (cur : Iv) : List Iv → List Iv
  | [] => [cur]
  | i :: rest =>
    if cur.2 < i.1 then cur :: mergeAux i rest
    else mergeAux (cur.1, max cur.2 i.2) rest

/-- Sorting key of the JS comparator `a.startMin - b.startMin`. -/
abbrev startLe (a b : Iv) : Prop := a.1 ≤ b.1

/-- The walk over the sorted list: an empty array never pushes, otherwise
the first element seeds the accumulator. -/
def mergeWalk : List Iv → List Iv
  | [] => []
  | i :: rest => mergeAux i rest

/-- `mergeIntervals`: drop empty/inverted intervals, sort by start
(`Array.prototype.sort` with comparator `a.startMin - b.startMin` is some
stable sort by start; a stable structural one models it), then walk merging
touching or overlapping intervals. -/
def mergeIntervals (intervals : List Iv) : List Iv :=
  mergeWalk (List.insertionSort startLe (intervals.filter (fun i => i.1 < i.2)))

/-- Inner loop of `subtractIntervals` for one available interval ending at
`aEnd`, with the moving `cursor`; both early `break` paths fall through to
the trailing `if (cursor < a.endMin)` push. -/
def subtractOne (aEnd : Nat) : Nat → List Iv → List Iv
  | cursor, [] => if cursor < aEnd then [(cursor, aEnd)] else []
  | cursor, b :: rest =>
    if b.2 ≤ cursor then subtractOne aEnd cursor rest
    else if aEnd ≤ b.1 then (if cursor < aEnd then [(cursor, aEnd)] else [])
    else
      (if cursor < b.1 then [(cursor, min b.1 aEnd)] else []) ++
        (if aEnd ≤ max cursor b.2 then [] else subtractOne aEnd (max cursor b.2) rest)

/-- `subtractIntervals(available, busy)`: one output list accumulated over
the available intervals in order. -/
def subtractIntervals : List Iv → List Iv → List Iv
  | [], _ => []
  | a :: as, busy => subtractOne a.2 a.1 busy ++ subtractIntervals as busy

/-- `chooseMorningEnd(busyMerged, defaultEndMin)`: the start of the first
busy interval whose end exceeds 08:30, clamped into [0, defaultEndMin];
the default when none is relevant. -/
def chooseMorningEnd : List Iv → Nat → Nat
  | [], defaultEndMin => defaultEndMin
  | b :: rest, defaultEndMin =>
    if b.2 ≤ hmToMinutes BREAKFAST_END then chooseMorningEnd rest defaultEndMin
    else clamp b.1 0 defaultEndMin

/-! ## Events and the block packer (`scheduleBlocks`) -/

/-- One VEVENT record. `uid`, `summary`, `dtstart`, `dtend` are the fields
the script stores; the remaining fields are ghost fields (see header). -/
structure Event where
  uid : String
  summary : String
  dtstart : String
  dtend : String
  key : String
  startMin : Nat
  endMin : Nat
  ymd : String
  epochDay : Nat
deriving Repr, DecidableEq

/-- JS `s.replace(":", "")`: remove the first occurrence only. -/
def removeFirstColon : List Char → List Char
  | [] => []
  | c :: rest => if c = ':' then rest else c :: removeFirstColon rest

/-- `uidForEvent(key, ymd, startHm)`. -/
def uidForEvent (key ymd startHm : String) : String :=
  "tb-" ++ DJ ++ "-" ++ key ++ "-" ++ ymd ++ "-" ++
    String.mk (removeFirstColon startHm.data) ++ "@javibeat"

/-- `dtLocalFloating(ymd, hm)`. -/
def dtLocalFloating (ymd hm : String) : String :=
  let c := ymdToDateParts ymd
  let p := jsSplit ':' hm
  toString c.1 ++ pad2 c.2.1 ++ pad2 c.2.2 ++ "T" ++
    pad2 (jsNat (p.getD 0 "")) ++ pad2 (jsNat (p.getD 1 "")) ++ "00"

/-- The event object `scheduleBlocks` pushes for block `blk` placed at
`startMin` on day `ymd` (the day numbered `tag`). -/
def mkEvent (blk : WorkBlock) (ymd : String) (tag startMin : Nat) : Event :=
  let endMin := startMin + blk.minutes
  let startHm := minutesToHm startMin
  let endHm := minutesToHm endMin
  { uid := uidForEvent blk.key ymd startHm
    summary := blk.title
    dtstart := dtLocalFloating ymd startHm
    dtend := dtLocalFloating ymd endHm
    key := blk.key
    startMin := startMin
    endMin := endMin
    ymd := ymd
    epochDay := tag }

/-- The fit test `!(it.endMin - it.startMin < needed)` over JS numbers:
the subtraction may be negative, so it is taken over `Int`. -/
def fitsB (needed : Nat) (it : Iv) : Bool :=
  !((it.2 : Int) - (it.1 : Int) < (needed : Int))

/-- `scheduleBlocks`: for each block in order, find the first interval index
whose length suffices (the inner `for (let idx = ...)` loop with `break`),
place the block at its start, and splice `remainingFree` as the script does
with `slice(0, idx)` / `newIntervals` / `slice(idx + 1)`. -/
def scheduleBlocksAux (ymd : String) (tag : Nat) : List WorkBlock → List Iv → List Event
  | [], _ => []
  | blk :: bs, free =>
    match free.findIdx? (fitsB blk.minutes) with
    | none => scheduleBlocksAux ymd tag bs free
    | some idx =>
      mkEvent blk ymd tag (free.getD idx (0, 0)).1 ::
        scheduleBlocksAux ymd tag bs
          (free.take idx ++
            (if (free.getD idx (0, 0)).1 + blk.minutes + BREAK_MIN < (free.getD idx (0, 0)).2
             then [((free.getD idx (0, 0)).1 + blk.minutes + BREAK_MIN,
               (free.getD idx (0, 0)).2)]
             else []) ++ free.drop (idx + 1))

def scheduleBlocks (free : List Iv) (ymd : String) (tag : Nat) : List Event :=
  scheduleBlocksAux ymd tag BLOCKS free

/-! ## Spec-side packer (transcribed from the specification, §4.4)

A second definition of the packer, written from the words of the design
document rather than from the script, for the refinement claim: process
blocks in priority order; for each block scan the free-interval sequence
for the first interval whose length is at least the duration; place the
block at the start of that interval; replace the interval with
[start + duration + break, end) when non-empty and remove it otherwise,
leaving all other intervals unchanged in relative order; when no interval
fits, skip the block and still attempt the rest. -/

def packPlace (blk : WorkBlock) (ymd : String) (tag : Nat) :
    List Iv → Option (Event × List Iv)
  | [] => none
  | it :: rest =>
    if blk.minutes ≤ it.2 - it.1 then
      some (mkEvent blk ymd tag it.1,
        (if it.1 + blk.minutes + BREAK_MIN < it.2
         then [(it.1 + blk.minutes + BREAK_MIN, it.2)] else []) ++ rest)
    else
      match packPlace blk ymd tag rest with
      | none => none
      | some (ev, rest2) => some (ev, it :: rest2)

def packSpecAux (ymd : String) (tag : Nat) : List WorkBlock → List Iv → List Event
  | [], _ => []
  | blk :: bs, free =>
    match packPlace blk ymd tag free with
    | none => packSpecAux ymd tag bs free
    | some (ev, free2) => ev :: packSpecAux ymd tag bs free2

/-! ## Gigs and the per-day pipeline (`main`) -/

/-- A gig as far as the script reads it: `date` and `time`. A null or
undefined field is modelled as "". -/
structure Gig where
  date : String
  time : String
deriving Repr, DecidableEq

/-- The `!g?.date || !g?.time` presence check (empty string is falsy). -/
def hasDateTime (g : Gig) : Bool := g.date != "" && g.time != ""

/-- `byDate.get(ymd) ?? []`: the gigs grouped under a date string, in
input order, restricted to those passing the presence check. -/
def gigsFor (dateStr : String) (gigs : List Gig) : List Gig :=
  gigs.filter (fun g => hasDateTime g && g.date == dateStr)

/-- The busy interval of one parsed gig: `[start - 60, end + 60]` clamped
into [0, 1440]. The JS `startMin - 60` can go negative before the clamp to
0; `Nat` subtraction already truncates at 0, which the clamp makes equal. -/
def bufferGig (r : (Nat × Nat) × (Nat × Nat)) : Iv :=
  let startMin := r.1.1 * 60 + r.1.2
  let endMin := r.2.1 * 60 + r.2.2
  (clamp (startMin - 60) 0 1440, clamp (endMin + 60) 0 1440)

/-- The `for (const g of gigsForDay)` loop building `busy`: parse each time
range (first failure throws) and buffer it. -/
def busyOfGigs : List Gig → Except Unit (List Iv)
  | [] => .ok []
  | g :: gs =>
    match parseRange g.time with
    | none => .error ()
    | some r =>
      match busyOfGigs gs with
      | .error e => .error e
      | .ok rest => .ok (bufferGig r :: rest)

/-- The busy intervals a day contributes, read off without the exception
plumbing (equal to the `busyOfGigs` result whenever that one succeeds). -/
def busyRawOfDay (dateStr : String) (gigs : List Gig) : List Iv :=
  (gigsFor dateStr gigs).filterMap (fun g => (parseRange g.time).map bufferGig)

def busyMergedOfDay (dateStr : String) (gigs : List Gig) : List Iv :=
  mergeIntervals (busyRawOfDay dateStr gigs)

/-- The per-day tail of the loop body of `main` once the busy intervals of
the day are known: morning window, subtraction, filter, packing. An empty
or inverted window (`morningEndMin <= morningStartMin`) contributes no
events (the `continue`). -/
def dayEvents (ymd : String) (tag : Nat) (busyRaw : List Iv) : List Event :=
  let busyMerged := mergeIntervals busyRaw
  let morningStartMin := hmToMinutes BREAKFAST_END
  let morningEndMin := chooseMorningEnd busyMerged (hmToMinutes DEFAULT_END)
  if morningEndMin ≤ morningStartMin then []
  else
    let available := [(morningStartMin, morningEndMin)]
    let free := (subtractIntervals available busyMerged).filter (fun x => x.1 < x.2)
    scheduleBlocks free ymd tag

/-- One iteration of the day loop of `main`: skip non-weekdays, parse the
gigs of the day (a bad time range throws), run the day pipeline. -/
def processDay (y m d : Nat) (gigs : List Gig) (i : Nat) : Except Unit (List Event) :=
  let ymd := dayDateStr y m d i
  let dow := dayDow y m d i
  if 1 ≤ dow ∧ dow ≤ 5 then
    match busyOfGigs (gigsFor ymd gigs) with
    | .error e => .error e
    | .ok busy => .ok (dayEvents ymd (dayNumber y m d i) busy)
  else .ok []

/-- Sequencing of one day with the rest of the loop: the first exception
is the result of the run (in this total model the value of the remaining
days is formed but discarded, which leaves every outcome unchanged). -/
def combineRun (r1 r2 : Except Unit (List Event)) : Except Unit (List Event) :=
  match r1 with
  | .error e => .error e
  | .ok evs =>
    match r2 with
    | .error e => .error e
    | .ok rest => .ok (evs ++ rest)

/-- The day loop, accumulating `allEvents` in day order and aborting the
run at the first exception. -/
def runAux (y m d : Nat) (gigs : List Gig) : List Nat → Except Unit (List Event)
  | [] => .ok []
  | i :: is => combineRun (processDay y m d gigs i) (runAux y m d gigs is)

/-- `main` up to the event list: days 0 .. DAYS-1 from the anchor day. -/
def runEvents (y m d : Nat) (gigs : List Gig) : Except Unit (List Event) :=
  runAux y m d gigs (List.range DAYS)

/-! ## ICS serialization (`buildIcs`)

`dtstamp` is `new Date().toISOString()` reformatted: the wall-clock
generation instant, an input of the serializer in this model. -/

def icsHeader : List String :=
  [ "BEGIN:VCALENDAR", "VERSION:2.0", "PRODID:-//JaviBeat//Timeblocking//EN",
    "CALSCALE:GREGORIAN", "METHOD:PUBLISH", "X-WR-CALNAME:Timeblocking",
    "X-WR-TIMEZONE:" ++ TZID ]

def eventLines (ev : Event) (dtstamp : String) : List String :=
  [ "BEGIN:VEVENT",
    "UID:" ++ ev.uid,
    "DTSTAMP:" ++ dtstamp,
    "SUMMARY:" ++ ev.summary,
    "DTSTART;TZID=" ++ TZID ++ ":" ++ ev.dtstart,
    "DTEND;TZID=" ++ TZID ++ ":" ++ ev.dtend,
    "STATUS:CONFIRMED",
    "TRANSP:OPAQUE",
    "END:VEVENT" ]

def buildIcsLines (events : List Event) (dtstamp : String) : List String :=
  icsHeader ++ events.flatMap (fun ev => eventLines ev dtstamp) ++ ["END:VCALENDAR"]

/-- `buildIcs`: `lines.join("\r\n") + "\r\n"`. -/
def buildIcs (events : List Event) (dtstamp : String) : String :=
  String.intercalate "\r\n" (buildIcsLines events dtstamp) ++ "\r\n"

/-- Serialization of a run outcome: an exception anywhere aborts before
the output file is written. -/
def serializeRun (r : Except Unit (List Event)) (dtstamp : String) : Except Unit String :=
  match r with
  | .error e => .error e
  | .ok evs => .ok (buildIcs evs dtstamp)

/-- The whole run: event list then serialization. -/
def runIcs (y m d : Nat) (gigs : List Gig) (dtstamp : String) : Except Unit String :=
  serializeRun (runEvents y m d gigs) dtstamp

/-! ## Derived notions used by the verification

`noOverlap`, `covers`, `exceptP`, `processedWeekdayStrs` and the ICS line
template are properties and views of the model, not part of the script. -/

deriving instance DecidableEq for Except

/-- Two minute intervals share no minute. -/
def noOverlap (p q : Iv) : Prop := min p.2 q.2 ≤ max p.1 q.1

/-- The outcome predicate of a run: trivial on an aborted run, `p` on the
event list of a successful one. -/
def exceptP {α : Type} (r : Except Unit α) (p : α → Prop) : Prop :=
  match r with
  | .error _ => True
  | .ok a => p a

/-- The date strings of the Mon-Fri days among the 7 days from the anchor:
exactly the days whose commitments are parsed at all. -/
def processedWeekdayStrs (y m d : Nat) : List String :=
  (List.range DAYS).filterMap (fun i =>
    if 1 ≤ dayDow y m d i ∧ dayDow y m d i ≤ 5 then some (dayDateStr y m d i) else none)

/-- A line of the ICS output, abstracted over the generation timestamp:
either a fixed string or the DTSTAMP line. -/
inductive IcsLine where
  | fixed : String → IcsLine
  | stamp : IcsLine

def instLine (dtstamp : String) : IcsLine → String
  | .fixed s => s
  | .stamp => "DTSTAMP:" ++ dtstamp

/-- The per-event lines with the DTSTAMP position left abstract. -/
def eventTemplate (ev : Event) : List IcsLine :=
  [ .fixed "BEGIN:VEVENT",
    .fixed ("UID:" ++ ev.uid),
    .stamp,
    .fixed ("SUMMARY:" ++ ev.summary),
    .fixed ("DTSTART;TZID=" ++ TZID ++ ":" ++ ev.dtstart),
    .fixed ("DTEND;TZID=" ++ TZID ++ ":" ++ ev.dtend),
    .fixed "STATUS:CONFIRMED",
    .fixed "TRANSP:OPAQUE",
    .fixed "END:VEVENT" ]

/-- The whole ICS line list with DTSTAMP positions abstract; it depends
only on the event list, never on the clock. -/
def icsTemplate (events : List Event) : List IcsLine :=
  icsHeader.map .fixed ++ events.flatMap eventTemplate ++ [.fixed "END:VCALENDAR"]


/-! ## Basic coverage lemmas -/

theorem covers_nil (m : Nat) : ¬ covers [] m := by
  rintro ⟨p, hp, -⟩
  exact absurd hp (List.not_mem_nil p)

theorem covers_cons {p : Iv} {l : List Iv} {m : Nat} :
    covers (p :: l) m ↔ (p.1 ≤ m ∧ m < p.2) ∨ covers l m := by
  constructor
  · rintro ⟨q, hq, h1, h2⟩
    rcases List.mem_cons.1 hq with rfl | hq
    · exact Or.inl ⟨h1, h2⟩
    · exact Or.inr ⟨q, hq, h1, h2⟩
  · rintro (⟨h1, h2⟩ | ⟨q, hq, h1, h2⟩)
    · exact ⟨p, List.mem_cons_self p l, h1, h2⟩
    · exact ⟨q, List.mem_cons_of_mem p hq, h1, h2⟩

theorem covers_append {l1 l2 : List Iv} {m : Nat} :
    covers (l1 ++ l2) m ↔ covers l1 m ∨ covers l2 m := by
  constructor
  · rintro ⟨q, hq, h1, h2⟩
    rcases List.mem_append.1 hq with hq | hq
    · exact Or.inl ⟨q, hq, h1, h2⟩
    · exact Or.inr ⟨q, hq, h1, h2⟩
  · rintro (⟨q, hq, h1, h2⟩ | ⟨q, hq, h1, h2⟩)
    · exact ⟨q, List.mem_append_left _ hq, h1, h2⟩
    · exact ⟨q, List.mem_append_right _ hq, h1, h2⟩

theorem covers_singleton {p : Iv} {m : Nat} :
    covers [p] m ↔ p.1 ≤ m ∧ m < p.2 := by
  rw [covers_cons]
  simp [covers_nil, covers]

theorem not_covers_of_lt_starts {l : List Iv} {c m : Nat}
    (h : ∀ q ∈ l, c ≤ q.1) (hm : m < c) : ¬ covers l m := by
  rintro ⟨q, hq, h1, h2⟩
  have := h q hq
  omega

/-! ## mergeIntervals: structure and coverage -/

theorem mergeAux_cover (l : List Iv) : ∀ cur : Iv,
    l.Pairwise (fun a b => a.1 ≤ b.1) → (∀ i ∈ l, cur.1 ≤ i.1) → ∀ m,
    (covers (mergeAux cur l) m ↔ (cur.1 ≤ m ∧ m < cur.2) ∨ covers l m) := by
  induction l with
  | nil =>
    intro cur _ _ m
    simp [mergeAux, covers_singleton, covers_nil]
  | cons i rest ih =>
    intro cur hsorted hstarts m
    rw [List.pairwise_cons] at hsorted
    have hcuri : cur.1 ≤ i.1 := hstarts i (List.mem_cons_self i rest)
    unfold mergeAux
    by_cases hlt : cur.2 < i.1
    · rw [if_pos hlt, covers_cons, ih i hsorted.2 hsorted.1 m, covers_cons]
    · rw [if_neg hlt]
      have hresti : ∀ j ∈ rest, (cur.1, max cur.2 i.2).1 ≤ j.1 := by
        intro j hj
        exact hstarts j (List.mem_cons_of_mem i hj)
      rw [ih (cur.1, max cur.2 i.2) hsorted.2 hresti m, covers_cons]
      by_cases hR : covers rest m <;> simp only [hR, or_true, or_false] <;>
        constructor <;> intro h <;> simp only [] at h ⊢ <;> omega

theorem mergeAux_struct (l : List Iv) : ∀ cur : Iv,
    l.Pairwise (fun a b => a.1 ≤ b.1) → (∀ i ∈ l, cur.1 ≤ i.1) →
    (∀ i ∈ l, i.1 < i.2) → cur.1 < cur.2 →
    (mergeAux cur l).Pairwise (fun p q => p.2 < q.1) ∧
      ∀ p ∈ mergeAux cur l, cur.1 ≤ p.1 ∧ p.1 < p.2 := by
  induction l with
  | nil =>
    intro cur _ _ _ hcur
    constructor
    · simp [mergeAux]
    · intro p hp
      rw [mergeAux] at hp
      rcases List.mem_singleton.1 hp with rfl
      exact ⟨le_refl _, hcur⟩
  | cons i rest ih =>
    intro cur hsorted hstarts hpos hcur
    rw [List.pairwise_cons] at hsorted
    have hcuri : cur.1 ≤ i.1 := hstarts i (List.mem_cons_self i rest)
    have hiPos : i.1 < i.2 := hpos i (List.mem_cons_self i rest)
    unfold mergeAux
    by_cases hlt : cur.2 < i.1
    · rw [if_pos hlt]
      have hM := ih i hsorted.2 hsorted.1
        (fun j hj => hpos j (List.mem_cons_of_mem i hj)) hiPos
      constructor
      · rw [List.pairwise_cons]
        refine ⟨fun p hp => ?_, hM.1⟩
        have := (hM.2 p hp).1
        omega
      · intro p hp
        rcases List.mem_cons.1 hp with rfl | hp
        · exact ⟨le_refl _, hcur⟩
        · have := hM.2 p hp
          constructor <;> omega
    · rw [if_neg hlt]
      exact ih (cur.1, max cur.2 i.2) hsorted.2
        (fun j hj => hstarts j (List.mem_cons_of_mem i hj))
        (fun j hj => hpos j (List.mem_cons_of_mem i hj)) (by simp; omega)

theorem insertionSort_starts_sorted (l : List Iv) :
    (List.insertionSort startLe l).Pairwise (fun a b : Iv => a.1 ≤ b.1) :=
  @List.sorted_insertionSort Iv startLe _ ⟨fun a b => Nat.le_total a.1 b.1⟩
    ⟨fun _ _ _ => Nat.le_trans⟩ l

theorem mergeWalk_struct (s : List Iv)
    (hsorted : s.Pairwise (fun a b : Iv => a.1 ≤ b.1))
    (hpos : ∀ p ∈ s, p.1 < p.2) :
    (mergeWalk s).Pairwise (fun p q => p.2 < q.1) ∧
      ∀ p ∈ mergeWalk s, p.1 < p.2 := by
  match s with
  | [] => simp [mergeWalk]
  | i :: rest =>
    rw [List.pairwise_cons] at hsorted
    have h := mergeAux_struct rest i hsorted.2 hsorted.1
      (fun j hj => hpos j (List.mem_cons_of_mem i hj))
      (hpos i (List.mem_cons_self i rest))
    exact ⟨h.1, fun p hp => (h.2 p hp).2⟩

theorem mergeWalk_cover (s : List Iv)
    (hsorted : s.Pairwise (fun a b : Iv => a.1 ≤ b.1)) (m : Nat) :
    covers (mergeWalk s) m ↔ covers s m := by
  match s with
  | [] => simp [mergeWalk]
  | i :: rest =>
    rw [List.pairwise_cons] at hsorted
    rw [mergeWalk, mergeAux_cover rest i hsorted.2 hsorted.1 m, covers_cons]

theorem mergeIntervals_struct (l : List Iv) :
    (mergeIntervals l).Pairwise (fun p q => p.2 < q.1) ∧
      ∀ p ∈ mergeIntervals l, p.1 < p.2 := by
  unfold mergeIntervals
  refine mergeWalk_struct _ (insertionSort_starts_sorted _) ?_
  intro p hp
  have := (List.perm_insertionSort startLe (l.filter (fun i => i.1 < i.2))).mem_iff.1 hp
  simpa using List.of_mem_filter this

theorem mergeIntervals_cover (l : List Iv) (m : Nat) :
    covers (mergeIntervals l) m ↔ covers (l.filter fun i => i.1 < i.2) m := by
  unfold mergeIntervals
  rw [mergeWalk_cover _ (insertionSort_starts_sorted _) m]
  have hperm := List.perm_insertionSort startLe (l.filter (fun i => i.1 < i.2))
  constructor
  · rintro ⟨q, hq, h1, h2⟩
    exact ⟨q, hperm.mem_iff.1 hq, h1, h2⟩
  · rintro ⟨q, hq, h1, h2⟩
    exact ⟨q, hperm.mem_iff.2 hq, h1, h2⟩

/-! ## subtractIntervals: structure and coverage -/

theorem subtractOne_struct (aEnd : Nat) (B : List Iv)
    (hBpos : ∀ b ∈ B, b.1 < b.2) (hBsorted : B.Pairwise (fun p q => p.2 ≤ q.1)) :
    ∀ cursor,
      (∀ p ∈ subtractOne aEnd cursor B, cursor ≤ p.1 ∧ p.1 < p.2 ∧ p.2 ≤ aEnd) ∧
        (subtractOne aEnd cursor B).Pairwise (fun p q => p.2 ≤ q.1) := by
  induction B with
  | nil =>
    intro cursor
    by_cases h : cursor < aEnd
    · refine ⟨?_, by simp [subtractOne, h]⟩
      intro p hp
      simp only [subtractOne, if_pos h, List.mem_singleton] at hp
      subst hp
      exact ⟨le_refl _, h, le_refl _⟩
    · simp [subtractOne, h]
  | cons b rest ih =>
    rw [List.pairwise_cons] at hBsorted
    have hfront := hBsorted.1
    have hb : b.1 < b.2 := hBpos b (List.mem_cons_self b rest)
    have hrestpos : ∀ q ∈ rest, q.1 < q.2 :=
      fun q hq => hBpos q (List.mem_cons_of_mem b hq)
    have IH := ih hrestpos hBsorted.2
    intro cursor
    by_cases h1 : b.2 ≤ cursor
    · simpa only [subtractOne, if_pos h1] using IH cursor
    · by_cases h2 : aEnd ≤ b.1
      · by_cases h3 : cursor < aEnd
        · refine ⟨?_, by simp [subtractOne, if_neg h1, if_pos h2, h3]⟩
          intro p hp
          simp only [subtractOne, if_neg h1, if_pos h2, if_pos h3,
            List.mem_singleton] at hp
          subst hp
          exact ⟨le_refl _, h3, le_refl _⟩
        · simp [subtractOne, if_neg h1, if_pos h2, h3]
      · have hc2 : cursor < b.2 := by omega
        have hmax : max cursor b.2 = b.2 := by omega
        simp only [subtractOne, if_neg h1, if_neg h2, hmax]
        by_cases h4 : aEnd ≤ b.2
        · rw [if_pos h4, List.append_nil]
          by_cases h5 : cursor < b.1
          · rw [if_pos h5]
            constructor
            · intro p hp
              rw [List.mem_singleton] at hp
              subst hp
              refine ⟨le_refl _, ?_, ?_⟩ <;> dsimp only <;> omega
            · exact List.pairwise_singleton _ _
          · rw [if_neg h5]
            exact ⟨fun p hp => absurd hp (List.not_mem_nil p), List.Pairwise.nil⟩
        · rw [if_neg h4]
          have hrec := IH b.2
          by_cases h5 : cursor < b.1
          · rw [if_pos h5, List.singleton_append]
            constructor
            · intro p hp
              rcases List.mem_cons.1 hp with rfl | hp
              · refine ⟨le_refl _, ?_, ?_⟩ <;> dsimp only <;> omega
              · have := hrec.1 p hp
                exact ⟨by omega, this.2.1, this.2.2⟩
            · rw [List.pairwise_cons]
              refine ⟨fun q hq => ?_, hrec.2⟩
              have := (hrec.1 q hq).1
              dsimp only
              omega
          · rw [if_neg h5, List.nil_append]
            constructor
            · intro p hp
              have := hrec.1 p hp
              exact ⟨by omega, this.2.1, this.2.2⟩
            · exact hrec.2

theorem subtractOne_cover (aEnd : Nat) (B : List Iv)
    (hBpos : ∀ b ∈ B, b.1 < b.2) (hBsorted : B.Pairwise (fun p q => p.2 ≤ q.1)) :
    ∀ cursor m,
      covers (subtractOne aEnd cursor B) m ↔ (cursor ≤ m ∧ m < aEnd ∧ ¬ covers B m) := by
  induction B with
  | nil =>
    intro cursor m
    by_cases h : cursor < aEnd
    · simp only [subtractOne, if_pos h, covers_singleton]
      have := covers_nil m
      constructor
      · rintro ⟨ha, hb⟩
        exact ⟨ha, hb, this⟩
      · rintro ⟨ha, hb, -⟩
        exact ⟨ha, hb⟩
    · simp only [subtractOne, if_neg h]
      have := covers_nil m
      constructor
      · intro hc
        exact absurd hc this
      · rintro ⟨ha, hb, -⟩
        omega
  | cons b rest ih =>
    rw [List.pairwise_cons] at hBsorted
    have hfront := hBsorted.1
    have hb : b.1 < b.2 := hBpos b (List.mem_cons_self b rest)
    have hrestpos : ∀ q ∈ rest, q.1 < q.2 :=
      fun q hq => hBpos q (List.mem_cons_of_mem b hq)
    have IH := ih hrestpos hBsorted.2
    intro cursor m
    have hRestLow : covers rest m → b.2 ≤ m := by
      rintro ⟨q, hq, hq1, hq2⟩
      exact le_trans (hfront q hq) hq1
    rw [covers_cons]
    by_cases h1 : b.2 ≤ cursor
    · rw [show subtractOne aEnd cursor (b :: rest) = subtractOne aEnd cursor rest from by
        simp [subtractOne, h1], IH cursor m]
      by_cases hR : covers rest m <;> simp only [hR] <;> constructor <;>
        rintro ⟨x1, x2, x3⟩ <;> refine ⟨x1, x2, ?_⟩ <;> simp at x3 ⊢ <;> omega
    · by_cases h2 : aEnd ≤ b.1
      · simp only [subtractOne, if_neg h1, if_pos h2]
        by_cases h3 : cursor < aEnd
        · rw [if_pos h3, covers_singleton]
          by_cases hR : covers rest m
          · have hbm := hRestLow hR
            simp only [hR]
            constructor
            · rintro ⟨x1, x2⟩
              omega
            · rintro ⟨x1, x2, x3⟩
              exact absurd (Or.inr trivial) x3
          · simp only [hR]
            constructor
            · rintro ⟨x1, x2⟩
              refine ⟨x1, x2, ?_⟩
              rintro (⟨y1, y2⟩ | y)
              · omega
              · exact y
            · rintro ⟨x1, x2, -⟩
              exact ⟨x1, x2⟩
        · rw [if_neg h3]
          constructor
          · intro hc
            exact absurd hc (covers_nil m)
          · rintro ⟨x1, x2, -⟩
            omega
      · have hc2 : cursor < b.2 := by omega
        have hmax : max cursor b.2 = b.2 := by omega
        simp only [subtractOne, if_neg h1, if_neg h2, hmax]
        by_cases h4 : aEnd ≤ b.2
        · simp only [if_pos h4, List.append_nil]
          by_cases h5 : cursor < b.1
          · rw [if_pos h5, covers_singleton]
            by_cases hR : covers rest m
            · have hbm := hRestLow hR
              simp only [hR]
              constructor
              · rintro ⟨x1, x2⟩
                simp at x2
                omega
              · rintro ⟨x1, x2, x3⟩
                exact absurd (Or.inr trivial) x3
            · simp only [hR]
              constructor
              · rintro ⟨x1, x2⟩
                simp at x2
                refine ⟨x1, by omega, ?_⟩
                rintro (⟨y1, y2⟩ | y)
                · omega
                · exact y
              · rintro ⟨x1, x2, x3⟩
                have : ¬ (b.1 ≤ m ∧ m < b.2) := fun hy => absurd (Or.inl hy) x3
                simp
                omega
          · rw [if_neg h5]
            constructor
            · intro hc
              exact absurd hc (covers_nil m)
            · rintro ⟨x1, x2, x3⟩
              refine absurd (Or.inl ⟨?_, ?_⟩) x3 <;> omega
        · simp only [if_neg h4]
          rw [show (if cursor < b.1 then [(cursor, min b.1 aEnd)] else []) ++
                subtractOne aEnd b.2 rest =
              (if cursor < b.1 then [(cursor, min b.1 aEnd)] else []) ++
                subtractOne aEnd b.2 rest from rfl]
          rw [covers_append, IH b.2 m]
          by_cases h5 : cursor < b.1
          · rw [if_pos h5, covers_singleton]
            by_cases hR : covers rest m
            · have hbm := hRestLow hR
              simp only [hR]
              constructor
              · rintro (⟨x1, x2⟩ | ⟨x1, x2, x3⟩)
                · simp at x2
                  omega
                · exact absurd trivial x3
              · rintro ⟨x1, x2, x3⟩
                exact absurd (Or.inr trivial) x3
            · simp only [hR]
              constructor
              · rintro (⟨x1, x2⟩ | ⟨x1, x2, x3⟩)
                · simp at x2
                  refine ⟨x1, by omega, ?_⟩
                  rintro (⟨y1, y2⟩ | y)
                  · omega
                  · exact y
                · refine ⟨by omega, x2, ?_⟩
                  rintro (⟨y1, y2⟩ | y)
                  · omega
                  · exact y
              · rintro ⟨x1, x2, x3⟩
                have hnb : ¬ (b.1 ≤ m ∧ m < b.2) := fun hy => absurd (Or.inl hy) x3
                by_cases hm : m < b.1
                · left
                  simp
                  omega
                · right
                  refine ⟨by omega, x2, not_false⟩
          · rw [if_neg h5]
            have := covers_nil m
            by_cases hR : covers rest m
            · have hbm := hRestLow hR
              simp only [hR]
              constructor
              · rintro (hc | ⟨x1, x2, x3⟩)
                · exact absurd hc this
                · exact absurd trivial x3
              · rintro ⟨x1, x2, x3⟩
                exact absurd (Or.inr trivial) x3
            · simp only [hR]
              constructor
              · rintro (hc | ⟨x1, x2, x3⟩)
                · exact absurd hc this
                · refine ⟨by omega, x2, ?_⟩
                  rintro (⟨y1, y2⟩ | y)
                  · omega
                  · exact y
              · rintro ⟨x1, x2, x3⟩
                have hnb : ¬ (b.1 ≤ m ∧ m < b.2) := fun hy => absurd (Or.inl hy) x3
                right
                refine ⟨by omega, x2, not_false⟩

theorem subtractIntervals_struct (A B : List Iv)
    (hAsorted : A.Pairwise (fun p q => p.2 ≤ q.1))
    (hBpos : ∀ b ∈ B, b.1 < b.2) (hBsorted : B.Pairwise (fun p q => p.2 ≤ q.1)) :
    (subtractIntervals A B).Pairwise (fun p q => p.2 ≤ q.1) ∧
      ∀ p ∈ subtractIntervals A B, p.1 < p.2 ∧ ∃ a ∈ A, a.1 ≤ p.1 ∧ p.2 ≤ a.2 := by
  induction A with
  | nil => simp [subtractIntervals]
  | cons a as ih =>
    rw [List.pairwise_cons] at hAsorted
    have IH := ih hAsorted.2
    have hone := subtractOne_struct a.2 B hBpos hBsorted a.1
    rw [subtractIntervals]
    constructor
    · rw [List.pairwise_append]
      refine ⟨hone.2, IH.1, ?_⟩
      intro p hp q hq
      have hp2 := (hone.1 p hp).2.2
      obtain ⟨-, a2, ha2, hq1, -⟩ := IH.2 q hq
      have := hAsorted.1 a2 ha2
      omega
    · intro p hp
      rcases List.mem_append.1 hp with hp | hp
      · have := hone.1 p hp
        exact ⟨this.2.1, a, List.mem_cons_self a as, this.1, this.2.2⟩
      · obtain ⟨h1, a2, ha2, h2, h3⟩ := IH.2 p hp
        exact ⟨h1, a2, List.mem_cons_of_mem a ha2, h2, h3⟩

theorem subtractIntervals_cover (A B : List Iv)
    (hBpos : ∀ b ∈ B, b.1 < b.2) (hBsorted : B.Pairwise (fun p q => p.2 ≤ q.1))
    (m : Nat) :
    covers (subtractIntervals A B) m ↔ covers A m ∧ ¬ covers B m := by
  induction A with
  | nil => simp [subtractIntervals, covers_nil]
  | cons a as ih =>
    rw [subtractIntervals, covers_append, ih,
      subtractOne_cover a.2 B hBpos hBsorted a.1 m, covers_cons]
    by_cases hB : covers B m
    · simp [hB]
    · simp [hB, and_or_left]

/-- C2: for every finite list of intervals, `mergeIntervals` drops the
intervals with end ≤ start and returns a list that is sorted by start,
pairwise disjoint with no two output intervals touching or overlapping,
has no empty interval, and covers exactly the minutes covered by the kept
inputs. -/
theorem claim2_merge_correctness (l : List Iv) :
    (mergeIntervals l).Pairwise (fun p q => p.1 ≤ q.1) ∧
      (mergeIntervals l).Pairwise (fun p q => p.2 < q.1) ∧
      (∀ p ∈ mergeIntervals l, p.1 < p.2) ∧
      (∀ m, covers (mergeIntervals l) m ↔ covers (l.filter fun i => i.1 < i.2) m) := by
  obtain ⟨hpair, hpos⟩ := mergeIntervals_struct l
  refine ⟨?_, hpair, hpos, mergeIntervals_cover l⟩
  refine hpair.imp_of_mem ?_
  intro p q hp hq h
  have := hpos p hp
  omega

/-- C3: for merged, sorted inputs (positive-length, disjoint, in
increasing order), `subtractIntervals` covers exactly the minutes that are
available and not busy, and its output is again a positive-length,
disjoint, increasing sequence. -/
theorem claim3_subtract_correctness (A B : List Iv)
    (_hApos : ∀ a ∈ A, a.1 < a.2) (hAsorted : A.Pairwise (fun p q => p.2 ≤ q.1))
    (hBpos : ∀ b ∈ B, b.1 < b.2) (hBsorted : B.Pairwise (fun p q => p.2 ≤ q.1)) :
    (∀ m, covers (subtractIntervals A B) m ↔ covers A m ∧ ¬ covers B m) ∧
      (subtractIntervals A B).Pairwise (fun p q => p.2 ≤ q.1) ∧
      ∀ p ∈ subtractIntervals A B, p.1 < p.2 := by
  obtain ⟨h1, h2⟩ := subtractIntervals_struct A B hAsorted hBpos hBsorted
  exact ⟨subtractIntervals_cover A B hBpos hBsorted, h1,
    fun p hp => (h2 p hp).1⟩

/-- Witness for C3 at a concrete morning window and one busy interval. -/
theorem claim3_subtract_correctness_witness :
    ((∀ a ∈ [((510 : Nat), (780 : Nat))], a.1 < a.2) ∧
      (∀ b ∈ [((540 : Nat), (600 : Nat))], b.1 < b.2)) ∧
      ((∀ m, covers (subtractIntervals [(510, 780)] [(540, 600)]) m ↔
          covers [(510, 780)] m ∧ ¬ covers [(540, 600)] m) ∧
        (subtractIntervals [(510, 780)] [(540, 600)]).Pairwise (fun p q => p.2 ≤ q.1) ∧
        ∀ p ∈ subtractIntervals [(510, 780)] [(540, 600)], p.1 < p.2) :=
  ⟨⟨by decide, by decide⟩,
    claim3_subtract_correctness [(510, 780)] [(540, 600)] (by decide)
      (List.pairwise_singleton _ _) (by decide) (List.pairwise_singleton _ _)⟩

/-! ## Morning window resolver -/

theorem chooseMorningEnd_eq_find (busy : List Iv) (d : Nat) :
    chooseMorningEnd busy d =
      match busy.find? (fun b => decide (hmToMinutes BREAKFAST_END < b.2)) with
      | some b => clamp b.1 0 d
      | none => d := by
  induction busy with
  | nil => rfl
  | cons b rest ih =>
    rw [chooseMorningEnd, List.find?_cons]
    by_cases h : b.2 ≤ hmToMinutes BREAKFAST_END
    · have hd : decide (hmToMinutes BREAKFAST_END < b.2) = false := by
        rw [decide_eq_false_iff_not]
        omega
      rw [if_pos h, hd, ih]
    · have hd : decide (hmToMinutes BREAKFAST_END < b.2) = true := by
        rw [decide_eq_true_eq]
        omega
      rw [if_neg h, hd]

theorem dayEvents_empty_window (s : String) (t : Nat) (raw : List Iv)
    (h : chooseMorningEnd (mergeIntervals raw) (hmToMinutes DEFAULT_END) ≤
      hmToMinutes BREAKFAST_END) :
    dayEvents s t raw = [] := by
  unfold dayEvents
  rw [if_pos h]

/-- C4: for a merged, sorted busy set, the morning-window resolver returns
the start of the first busy interval whose end exceeds window-open
(08:30 = 510 minutes) clamped into [0, 780], or the 13:00 fallback (780)
when no interval is relevant — in particular an interval straddling 08:30
closes the window at its pre-08:30 start; and whenever the resulting
closing time is at most 510, the day contributes zero scheduled blocks
(an empty event list, not an error). -/
theorem claim4_morning_window (busy : List Iv)
    (_hsorted : busy.Pairwise (fun p q => p.2 ≤ q.1)) :
    (chooseMorningEnd busy (hmToMinutes DEFAULT_END) =
        match busy.find? (fun b => decide (hmToMinutes BREAKFAST_END < b.2)) with
        | some b => clamp b.1 0 (hmToMinutes DEFAULT_END)
        | none => hmToMinutes DEFAULT_END) ∧
      ∀ s t raw, mergeIntervals raw = busy →
        chooseMorningEnd busy (hmToMinutes DEFAULT_END) ≤ hmToMinutes BREAKFAST_END →
        dayEvents s t raw = [] :=
  ⟨chooseMorningEnd_eq_find busy _,
    fun s t raw hmerge hle => dayEvents_empty_window s t raw (by rw [hmerge]; exact hle)⟩

/-- Witness for C4: one busy interval [06:40, 10:00) (already merged),
straddling 08:30; the window closes at 400 ≤ 510 and the day is empty. -/
theorem claim4_morning_window_witness :
    (([((400 : Nat), (600 : Nat))] : List Iv).Pairwise (fun p q => p.2 ≤ q.1)) ∧
      ((chooseMorningEnd [((400 : Nat), (600 : Nat))] (hmToMinutes DEFAULT_END) =
          match ([((400 : Nat), (600 : Nat))] : List Iv).find?
              (fun b => decide (hmToMinutes BREAKFAST_END < b.2)) with
          | some b => clamp b.1 0 (hmToMinutes DEFAULT_END)
          | none => hmToMinutes DEFAULT_END) ∧
        ∀ s t raw, mergeIntervals raw = [((400 : Nat), (600 : Nat))] →
          chooseMorningEnd [((400 : Nat), (600 : Nat))] (hmToMinutes DEFAULT_END) ≤
            hmToMinutes BREAKFAST_END →
          dayEvents s t raw = []) :=
  ⟨by decide, claim4_morning_window [(400, 600)] (by decide)⟩

/-! ## The 12-hour parser claims -/

/-- C9 counterexample: the string "13:45 PM" is accepted by `parseTime12h`
(the regex allows any 1-2 digit hour), though its hour field 13 is outside
[1, 12]; it parses to 25:45, an offset of 1545 minutes, outside [0, 1440). -/
theorem claim9_counterexample :
    parseTime12h "13:45 PM" = some (25, 45) ∧ ¬ (25 * 60 + 45 < 1440) := by
  constructor
  · decide
  · decide

/-- C9 (amended): an accepted string is trimmed and matches
1-2 digit hour, ':', 2-digit minute, optional blanks, one meridiem; the
hour digits may read 0-99 (not only 1-12) and the minutes 0-99 (not only
0-59); for an accepted string whose hour field is in [1,12] and minute
field in [0,59] the parsed offset lies in [0, 1440) after the meridiem
adjustment, with noon "12:00 PM" mapping to (12,0) = 720 minutes and
midnight "12:00 AM" to (0,0) = 0 minutes. -/
theorem claim9_parser_accepts (s : String) (hh mm : Nat) (pm : Bool)
    (hmatch : matchTime (jsTrim s).data = some (hh, mm, pm))
    (h1 : 1 ≤ hh) (h2 : hh ≤ 12) (h3 : mm ≤ 59) :
    (∃ t, parseTime12h s = some t ∧ t.1 * 60 + t.2 < 1440) ∧
      parseTime12h "12:00 PM" = some (12, 0) ∧
      parseTime12h "12:00 AM" = some (0, 0) := by
  refine ⟨?_, by decide, by decide⟩
  unfold parseTime12h
  rw [hmatch]
  cases pm
  · by_cases h12 : hh = 12 <;> simp [h12] <;> omega
  · by_cases h12 : hh = 12 <;> simp [h12] <;> omega

/-- Witness for C9 at "09:30 AM". -/
theorem claim9_parser_accepts_witness :
    (matchTime (jsTrim "09:30 AM").data = some (9, 30, false) ∧
        1 ≤ 9 ∧ 9 ≤ 12 ∧ 30 ≤ 59) ∧
      ((∃ t, parseTime12h "09:30 AM" = some t ∧ t.1 * 60 + t.2 < 1440) ∧
        parseTime12h "12:00 PM" = some (12, 0) ∧
        parseTime12h "12:00 AM" = some (0, 0)) :=
  ⟨⟨by decide, by decide, by decide, by decide⟩,
    claim9_parser_accepts "09:30 AM" 9 30 false (by decide) (by decide) (by decide)
      (by decide)⟩

/-! ## The packer refines the specified first-fit description -/

theorem fitsB_iff (needed : Nat) (it : Iv) (hwf : it.1 ≤ it.2) :
    fitsB needed it = true ↔ needed ≤ it.2 - it.1 := by
  unfold fitsB
  rw [Bool.not_eq_true']
  rw [decide_eq_false_iff_not]
  omega

theorem findIdx_place (blk : WorkBlock) (ymd : String) (tag : Nat) :
    ∀ free : List Iv, (∀ p ∈ free, p.1 ≤ p.2) →
      (free.findIdx? (fitsB blk.minutes) = none → packPlace blk ymd tag free = none) ∧
      (∀ idx, free.findIdx? (fitsB blk.minutes) = some idx →
        packPlace blk ymd tag free =
          some (mkEvent blk ymd tag (free.getD idx (0, 0)).1,
            free.take idx ++
              (if (free.getD idx (0, 0)).1 + blk.minutes + BREAK_MIN < (free.getD idx (0, 0)).2
               then [((free.getD idx (0, 0)).1 + blk.minutes + BREAK_MIN,
                 (free.getD idx (0, 0)).2)]
               else []) ++ free.drop (idx + 1))) := by
  intro free
  induction free with
  | nil =>
    intro _
    refine ⟨fun _ => rfl, fun idx h => ?_⟩
    simp [List.findIdx?] at h
  | cons it rest ih =>
    intro hwf
    have hit : it.1 ≤ it.2 := hwf it (List.mem_cons_self it rest)
    have hrest : ∀ p ∈ rest, p.1 ≤ p.2 := fun p hp => hwf p (List.mem_cons_of_mem it hp)
    have IH := ih hrest
    by_cases hfit : fitsB blk.minutes it = true
    · have hn : blk.minutes ≤ it.2 - it.1 := (fitsB_iff blk.minutes it hit).1 hfit
      constructor
      · intro h
        rw [List.findIdx?_cons, if_pos hfit] at h
        cases h
      · intro idx h
        rw [List.findIdx?_cons, if_pos hfit] at h
        cases h
        rw [packPlace, if_pos hn]
        simp [List.getD_cons_zero]
    · have hfalse : fitsB blk.minutes it = false := by
        rw [Bool.not_eq_true] at hfit
        exact hfit
      have hnot : ¬ blk.minutes ≤ it.2 - it.1 := by
        intro h
        exact hfit ((fitsB_iff blk.minutes it hit).2 h)
      have hstep : (it :: rest).findIdx? (fitsB blk.minutes) =
          (rest.findIdx? (fitsB blk.minutes)).map (fun i => i + 1) := by
        rw [List.findIdx?_cons, if_neg hfit, List.findIdx?_succ]
      constructor
      · intro h
        rw [hstep] at h
        rw [packPlace, if_neg hnot]
        rcases hrec : rest.findIdx? (fitsB blk.minutes) with - | j
        · rw [IH.1 hrec]
        · rw [hrec] at h
          cases h
      · intro idx h
        rw [hstep] at h
        rcases hrec : rest.findIdx? (fitsB blk.minutes) with - | j
        · rw [hrec] at h
          cases h
        · rw [hrec] at h
          cases h
          rw [packPlace, if_neg hnot, IH.2 j hrec]
          simp [List.getD_cons_succ, List.take_succ_cons, List.drop_succ_cons]

theorem splice_wf {free : List Iv} (hwf : ∀ p ∈ free, p.1 ≤ p.2)
    (idx : Nat) (newIntervals : List Iv) (hnew : ∀ p ∈ newIntervals, p.1 ≤ p.2) :
    ∀ p ∈ free.take idx ++ newIntervals ++ free.drop (idx + 1), p.1 ≤ p.2 := by
  intro p hp
  rcases List.mem_append.1 hp with hp | hp
  · rcases List.mem_append.1 hp with hp | hp
    · exact hwf p (List.take_subset idx free hp)
    · exact hnew p hp
  · exact hwf p (List.drop_subset (idx + 1) free hp)

theorem scheduleBlocksAux_eq_packSpecAux (ymd : String) (tag : Nat) :
    ∀ (blocks : List WorkBlock) (free : List Iv), (∀ p ∈ free, p.1 ≤ p.2) →
      scheduleBlocksAux ymd tag blocks free = packSpecAux ymd tag blocks free := by
  intro blocks
  induction blocks with
  | nil => intro free _; rfl
  | cons blk bs ih =>
    intro free hwf
    have hplace := findIdx_place blk ymd tag free hwf
    rw [scheduleBlocksAux, packSpecAux]
    rcases h : free.findIdx? (fitsB blk.minutes) with - | idx
    · rw [hplace.1 h]
      dsimp only
      rw [ih free hwf]
    · rw [hplace.2 idx h]
      dsimp only
      have hwfnew : ∀ p ∈ (if (free.getD idx (0, 0)).1 + blk.minutes + BREAK_MIN <
            (free.getD idx (0, 0)).2
          then [((free.getD idx (0, 0)).1 + blk.minutes + BREAK_MIN, (free.getD idx (0, 0)).2)]
          else []), p.1 ≤ p.2 := by
        intro p hp
        by_cases hc : (free.getD idx (0, 0)).1 + blk.minutes + BREAK_MIN <
            (free.getD idx (0, 0)).2
        · rw [if_pos hc, List.mem_singleton] at hp
          subst hp
          dsimp only
          omega
        · rw [if_neg hc] at hp
          exact absurd hp (List.not_mem_nil p)
      rw [ih _ (splice_wf hwf idx _ hwfnew)]

/-- C5: on a well-formed free-interval sequence the packer of the script
(`scheduleBlocks`: for each block of the fixed priority list, find the
first interval index whose length suffices, place the block at the start
of that interval, splice in [start + duration + 15, end) when non-empty
and drop the interval otherwise, leave all other intervals in relative
order, and skip blocks that fit nowhere while still attempting the rest)
computes the same event list as `packSpecAux`, the first-fit packer
transcribed from the specification text. -/
theorem claim5_packer_first_fit (ymd : String) (tag : Nat) (free : List Iv)
    (hwf : ∀ p ∈ free, p.1 ≤ p.2) :
    scheduleBlocks free ymd tag = packSpecAux ymd tag BLOCKS free :=
  scheduleBlocksAux_eq_packSpecAux ymd tag BLOCKS free hwf

/-- Witness for C5 on the default morning window. -/
theorem claim5_packer_first_fit_witness :
    (∀ p ∈ ([((510 : Nat), (780 : Nat))] : List Iv), p.1 ≤ p.2) ∧
      scheduleBlocks [(510, 780)] "2026-10-06" 20732 =
        packSpecAux "2026-10-06" 20732 BLOCKS [(510, 780)] :=
  ⟨by decide, claim5_packer_first_fit "2026-10-06" 20732 [(510, 780)] (by decide)⟩

/-! ## Packer soundness: placed blocks stay inside the free intervals -/

theorem packPlace_sound (blk : WorkBlock) (ymd : String) (tag : Nat) :
    ∀ free : List Iv, (∀ p ∈ free, p.1 ≤ p.2) → free.Pairwise noOverlap →
      ∀ ev free2, packPlace blk ymd tag free = some (ev, free2) →
        (∃ it ∈ free, ev.startMin = it.1 ∧ ev.endMin = it.1 + blk.minutes ∧
            it.1 + blk.minutes ≤ it.2) ∧
          (∀ p ∈ free2, p.1 ≤ p.2) ∧ free2.Pairwise noOverlap ∧
          (∀ q ∈ free2, ∃ p ∈ free, p.1 ≤ q.1 ∧ q.2 ≤ p.2) ∧
          (∀ q ∈ free2, noOverlap (ev.startMin, ev.endMin) q) := by
  intro free
  induction free with
  | nil =>
    intro _ _ ev free2 h
    cases h
  | cons it rest ih =>
    intro hwf hpw ev free2 h
    have hit : it.1 ≤ it.2 := hwf it (List.mem_cons_self it rest)
    have hrest : ∀ p ∈ rest, p.1 ≤ p.2 := fun p hp => hwf p (List.mem_cons_of_mem it hp)
    rw [List.pairwise_cons] at hpw
    by_cases hfit : blk.minutes ≤ it.2 - it.1
    · rw [packPlace, if_pos hfit] at h
      injection h with h1
      injection h1 with hev hfree2
      subst hev
      subst hfree2
      have hnew : ∀ q ∈ (if it.1 + blk.minutes + BREAK_MIN < it.2
          then [(it.1 + blk.minutes + BREAK_MIN, it.2)] else []),
          it.1 ≤ q.1 ∧ q.1 ≤ q.2 ∧ q.2 ≤ it.2 ∧ (mkEvent blk ymd tag it.1).endMin ≤ q.1 := by
        intro q hq
        by_cases hc : it.1 + blk.minutes + BREAK_MIN < it.2
        · rw [if_pos hc, List.mem_singleton] at hq
          subst hq
          refine ⟨?_, ?_, ?_, ?_⟩ <;> simp [mkEvent] <;> omega
        · rw [if_neg hc] at hq
          exact absurd hq (List.not_mem_nil q)
      refine ⟨⟨it, List.mem_cons_self it rest, rfl, rfl, by omega⟩, ?_, ?_, ?_, ?_⟩
      · intro p hp
        rcases List.mem_append.1 hp with hp | hp
        · have := hnew p hp
          omega
        · exact hrest p hp
      · rw [List.pairwise_append]
        refine ⟨?_, hpw.2, ?_⟩
        · by_cases hc : it.1 + blk.minutes + BREAK_MIN < it.2 <;> simp [hc]
        · intro p hp q hq
          have h1 := hnew p hp
          have h2 := hpw.1 q hq
          unfold noOverlap at h2 ⊢
          omega
      · intro q hq
        rcases List.mem_append.1 hq with hq | hq
        · have := hnew q hq
          exact ⟨it, List.mem_cons_self it rest, by omega, by omega⟩
        · exact ⟨q, List.mem_cons_of_mem it hq, le_refl _, le_refl _⟩
      · intro q hq
        rcases List.mem_append.1 hq with hq | hq
        · have := hnew q hq
          unfold noOverlap
          simp only [mkEvent] at this ⊢
          omega
        · have h2 := hpw.1 q hq
          unfold noOverlap at h2 ⊢
          simp only [mkEvent]
          omega
    · rw [packPlace, if_neg hfit] at h
      rcases hr : packPlace blk ymd tag rest with - | pair
      · rw [hr] at h
        cases h
      · rw [hr] at h
        rcases pair with ⟨ev0, rest2⟩
        cases h
        obtain ⟨⟨it2, hit2, he1, he2, he3⟩, hwf2, hpw2, hcont2, hdisj2⟩ :=
          ih hrest hpw.2 ev rest2 hr
        refine ⟨⟨it2, List.mem_cons_of_mem it hit2, he1, he2, he3⟩, ?_, ?_, ?_, ?_⟩
        · intro p hp
          rcases List.mem_cons.1 hp with rfl | hp
          · exact hit
          · exact hwf2 p hp
        · rw [List.pairwise_cons]
          refine ⟨?_, hpw2⟩
          intro q hq
          obtain ⟨p, hp, hq1, hq2⟩ := hcont2 q hq
          have := hpw.1 p hp
          unfold noOverlap at this ⊢
          omega
        · intro q hq
          rcases List.mem_cons.1 hq with rfl | hq
          · exact ⟨q, List.mem_cons_self q rest, le_refl _, le_refl _⟩
          · obtain ⟨p, hp, hq1, hq2⟩ := hcont2 q hq
            exact ⟨p, List.mem_cons_of_mem it hp, hq1, hq2⟩
        · intro q hq
          rcases List.mem_cons.1 hq with rfl | hq
          · have := hpw.1 it2 hit2
            unfold noOverlap at this ⊢
            omega
          · exact hdisj2 q hq

theorem packSpecAux_sound (ymd : String) (tag : Nat) :
    ∀ (blocks : List WorkBlock) (free : List Iv),
      (∀ p ∈ free, p.1 ≤ p.2) → free.Pairwise noOverlap →
      (packSpecAux ymd tag blocks free).Pairwise
          (fun e1 e2 => noOverlap (e1.startMin, e1.endMin) (e2.startMin, e2.endMin)) ∧
        ∀ e ∈ packSpecAux ymd tag blocks free,
          ∃ p ∈ free, p.1 ≤ e.startMin ∧ e.endMin ≤ p.2 := by
  intro blocks
  induction blocks with
  | nil =>
    intro free _ _
    exact ⟨List.Pairwise.nil, fun e he => absurd he (List.not_mem_nil e)⟩
  | cons blk bs ih =>
    intro free hwf hpw
    rw [packSpecAux]
    rcases h : packPlace blk ymd tag free with - | pair
    · exact ih free hwf hpw
    · rcases pair with ⟨ev, free2⟩
      obtain ⟨⟨it, hit, he1, he2, he3⟩, hwf2, hpw2, hcont2, hdisj2⟩ :=
        packPlace_sound blk ymd tag free hwf hpw ev free2 h
      obtain ⟨htail, hcont⟩ := ih free2 hwf2 hpw2
      constructor
      · rw [List.pairwise_cons]
        refine ⟨?_, htail⟩
        intro e2 he2mem
        obtain ⟨q, hq, hq1, hq2⟩ := hcont e2 he2mem
        have := hdisj2 q hq
        unfold noOverlap at this ⊢
        dsimp only at this ⊢
        omega
      · intro e he
        rcases List.mem_cons.1 he with rfl | he
        · exact ⟨it, hit, by omega, by omega⟩
        · obtain ⟨q, hq, hq1, hq2⟩ := hcont e he
          obtain ⟨p, hp, hp1, hp2⟩ := hcont2 q hq
          exact ⟨p, hp, by omega, by omega⟩

theorem scheduleBlocksAux_fields (ymd : String) (tag : Nat) :
    ∀ (blocks : List WorkBlock) (free : List Iv),
      ∀ e ∈ scheduleBlocksAux ymd tag blocks free, e.ymd = ymd ∧ e.epochDay = tag := by
  intro blocks
  induction blocks with
  | nil =>
    intro free e he
    exact absurd he (List.not_mem_nil e)
  | cons blk bs ih =>
    intro free e he
    rw [scheduleBlocksAux] at he
    rcases h : free.findIdx? (fitsB blk.minutes) with - | idx <;> rw [h] at he
    · exact ih free e he
    · rcases List.mem_cons.1 he with rfl | he
      · exact ⟨rfl, rfl⟩
      · exact ih _ e he

/-! ## Per-day soundness: no double booking within a day -/

theorem dayEvents_sound (s : String) (t : Nat) (raw : List Iv) :
    (dayEvents s t raw).Pairwise
        (fun e1 e2 => noOverlap (e1.startMin, e1.endMin) (e2.startMin, e2.endMin)) ∧
      (∀ e ∈ dayEvents s t raw, ∀ b ∈ mergeIntervals raw,
        noOverlap (e.startMin, e.endMin) b) ∧
      ∀ e ∈ dayEvents s t raw, e.ymd = s ∧ e.epochDay = t := by
  by_cases hguard : chooseMorningEnd (mergeIntervals raw) (hmToMinutes DEFAULT_END) ≤
      hmToMinutes BREAKFAST_END
  · rw [dayEvents_empty_window s t raw hguard]
    exact ⟨List.Pairwise.nil, fun e he => absurd he (List.not_mem_nil e),
      fun e he => absurd he (List.not_mem_nil e)⟩
  · have hday : dayEvents s t raw =
        scheduleBlocks ((subtractIntervals
            [(hmToMinutes BREAKFAST_END,
              chooseMorningEnd (mergeIntervals raw) (hmToMinutes DEFAULT_END))]
            (mergeIntervals raw)).filter (fun x => x.1 < x.2)) s t := by
      unfold dayEvents
      rw [if_neg hguard]
    obtain ⟨hMpw, hMpos⟩ := mergeIntervals_struct raw
    have hMle : (mergeIntervals raw).Pairwise (fun p q => p.2 ≤ q.1) :=
      hMpw.imp (fun h => le_of_lt h)
    have hApw : ([(hmToMinutes BREAKFAST_END,
        chooseMorningEnd (mergeIntervals raw) (hmToMinutes DEFAULT_END))] :
          List Iv).Pairwise (fun p q => p.2 ≤ q.1) := List.pairwise_singleton _ _
    obtain ⟨hSpw, hSmem⟩ := subtractIntervals_struct _ _ hApw hMpos hMle
    have hfsub := List.filter_sublist (l := subtractIntervals
        [(hmToMinutes BREAKFAST_END,
          chooseMorningEnd (mergeIntervals raw) (hmToMinutes DEFAULT_END))]
        (mergeIntervals raw)) (p := fun x => x.1 < x.2)
    have hfmem : ∀ p ∈ (subtractIntervals
        [(hmToMinutes BREAKFAST_END,
          chooseMorningEnd (mergeIntervals raw) (hmToMinutes DEFAULT_END))]
        (mergeIntervals raw)).filter (fun x => x.1 < x.2),
        p ∈ subtractIntervals
          [(hmToMinutes BREAKFAST_END,
            chooseMorningEnd (mergeIntervals raw) (hmToMinutes DEFAULT_END))]
          (mergeIntervals raw) := fun p hp => hfsub.subset hp
    have hfwf : ∀ p ∈ (subtractIntervals
        [(hmToMinutes BREAKFAST_END,
          chooseMorningEnd (mergeIntervals raw) (hmToMinutes DEFAULT_END))]
        (mergeIntervals raw)).filter (fun x => x.1 < x.2), p.1 ≤ p.2 := by
      intro p hp
      have := (hSmem p (hfmem p hp)).1
      omega
    have hfpw : ((subtractIntervals
        [(hmToMinutes BREAKFAST_END,
          chooseMorningEnd (mergeIntervals raw) (hmToMinutes DEFAULT_END))]
        (mergeIntervals raw)).filter (fun x => x.1 < x.2)).Pairwise noOverlap := by
      refine (hSpw.sublist hfsub).imp ?_
      intro a b hab
      unfold noOverlap
      omega
    have heq := scheduleBlocksAux_eq_packSpecAux s t BLOCKS _ hfwf
    obtain ⟨hpw, hcont⟩ := packSpecAux_sound s t BLOCKS _ hfwf hfpw
    rw [hday]
    unfold scheduleBlocks
    rw [heq]
    refine ⟨hpw, ?_, ?_⟩
    · intro e he b hb
      obtain ⟨p, hp, hp1, hp2⟩ := hcont e he
      by_contra hover
      unfold noOverlap at hover
      dsimp only at hover
      have hmem : covers (subtractIntervals
          [(hmToMinutes BREAKFAST_END,
            chooseMorningEnd (mergeIntervals raw) (hmToMinutes DEFAULT_END))]
          (mergeIntervals raw)) (max e.startMin b.1) :=
        ⟨p, hfmem p hp, by omega, by omega⟩
      have hnotbusy := (subtractIntervals_cover _ _ hMpos hMle (max e.startMin b.1)).1 hmem
      exact hnotbusy.2 ⟨b, hb, by omega, by omega⟩
    · intro e he
      rw [← heq] at he
      exact scheduleBlocksAux_fields s t BLOCKS _ e he

/-! ## Run-level soundness -/

theorem busyOfGigs_ok : ∀ (gs : List Gig) (busy : List Iv),
    busyOfGigs gs = .ok busy →
    busy = gs.filterMap (fun g => (parseRange g.time).map bufferGig) := by
  intro gs
  induction gs with
  | nil =>
    intro busy h
    cases h
    rfl
  | cons g gs ih =>
    intro busy h
    rw [busyOfGigs] at h
    rcases hp : parseRange g.time with - | r <;> rw [hp] at h
    · cases h
    · rcases hb : busyOfGigs gs with e | rest <;> rw [hb] at h
      · cases h
      · cases h
        rw [List.filterMap_cons, hp]
        rw [ih rest hb]
        rfl

theorem processDay_ok (y m d : Nat) (gigs : List Gig) (i : Nat) (evs : List Event)
    (h : processDay y m d gigs i = .ok evs) :
    evs.Pairwise
        (fun e1 e2 => noOverlap (e1.startMin, e1.endMin) (e2.startMin, e2.endMin)) ∧
      (∀ e ∈ evs, e.ymd = dayDateStr y m d i ∧ e.epochDay = dayNumber y m d i) ∧
      ∀ e ∈ evs, ∀ b ∈ busyMergedOfDay (dayDateStr y m d i) gigs,
        noOverlap (e.startMin, e.endMin) b := by
  unfold processDay at h
  by_cases hw : 1 ≤ dayDow y m d i ∧ dayDow y m d i ≤ 5
  · rw [if_pos hw] at h
    rcases hb : busyOfGigs (gigsFor (dayDateStr y m d i) gigs) with e | busy <;>
      rw [hb] at h
    · cases h
    · cases h
      obtain ⟨h1, h2, h3⟩ := dayEvents_sound (dayDateStr y m d i) (dayNumber y m d i) busy
      have hbusy : mergeIntervals busy = busyMergedOfDay (dayDateStr y m d i) gigs := by
        rw [busyOfGigs_ok _ busy hb]
        rfl
      refine ⟨h1, fun e he => (h3 e he), fun e he b hb2 => ?_⟩
      rw [← hbusy] at hb2
      exact h2 e he b hb2
  · rw [if_neg hw] at h
    cases h
    exact ⟨List.Pairwise.nil, fun e he => absurd he (List.not_mem_nil e),
      fun e he => absurd he (List.not_mem_nil e)⟩

theorem runAux_sound (y m d : Nat) (gigs : List Gig) :
    ∀ is : List Nat, is.Pairwise (fun i j => i ≠ j) →
      ∀ evs, runAux y m d gigs is = .ok evs →
        evs.Pairwise (fun e1 e2 => e1.epochDay = e2.epochDay →
            noOverlap (e1.startMin, e1.endMin) (e2.startMin, e2.endMin)) ∧
          ∀ e ∈ evs,
            (∃ i ∈ is, e.ymd = dayDateStr y m d i ∧ e.epochDay = dayNumber y m d i) ∧
              ∀ b ∈ busyMergedOfDay e.ymd gigs, noOverlap (e.startMin, e.endMin) b := by
  intro is
  induction is with
  | nil =>
    intro _ evs h
    cases h
    exact ⟨List.Pairwise.nil, fun e he => absurd he (List.not_mem_nil e)⟩
  | cons i is ih =>
    intro hnodup evs h
    rw [List.pairwise_cons] at hnodup
    rw [runAux] at h
    rcases hp : processDay y m d gigs i with e | evs0 <;> rw [hp] at h
    · cases h
    · rcases hr : runAux y m d gigs is with e | rest <;> rw [hr] at h <;>
        simp only [combineRun] at h
      · cases h
      · cases h
        obtain ⟨hpw0, hfields0, hbusy0⟩ := processDay_ok y m d gigs i evs0 hp
        obtain ⟨hpwR, hmemR⟩ := ih hnodup.2 rest hr
        constructor
        · rw [List.pairwise_append]
          refine ⟨hpw0.imp (fun hab => fun _ => hab), hpwR, ?_⟩
          intro e1 he1 e2 he2 heq
          obtain ⟨-, hd1⟩ := hfields0 e1 he1
          obtain ⟨⟨j, hj, -, hd2⟩, -⟩ := hmemR e2 he2
          have hij : i ≠ j := hnodup.1 j hj
          rw [hd1, hd2] at heq
          unfold dayNumber at heq
          omega
        · intro e he
          rcases List.mem_append.1 he with he | he
          · obtain ⟨hy, hd⟩ := hfields0 e he
            refine ⟨⟨i, List.mem_cons_self i is, hy, hd⟩, ?_⟩
            rw [hy]
            exact hbusy0 e he
          · obtain ⟨⟨j, hj, hy, hd⟩, hb⟩ := hmemR e he
            exact ⟨⟨j, List.mem_cons_of_mem i hj, hy, hd⟩, hb⟩

/-- C1: in every run, two scheduled blocks of the same calendar day never
overlap as [start, end) minute intervals, and no scheduled block overlaps
any merged, buffer-expanded busy interval of its day. -/
theorem claim1_no_double_booking (y m d : Nat) (gigs : List Gig) :
    exceptP (runEvents y m d gigs) (fun evs =>
      evs.Pairwise (fun e1 e2 => e1.epochDay = e2.epochDay →
          noOverlap (e1.startMin, e1.endMin) (e2.startMin, e2.endMin)) ∧
        ∀ e ∈ evs, ∀ b ∈ busyMergedOfDay e.ymd gigs,
          noOverlap (e.startMin, e.endMin) b) := by
  rcases h : runEvents y m d gigs with e | evs
  · exact trivial
  · have hnodup : (List.range DAYS).Pairwise (fun i j => i ≠ j) :=
      List.nodup_range DAYS
    obtain ⟨h1, h2⟩ := runAux_sound y m d gigs (List.range DAYS) hnodup evs h
    exact ⟨h1, fun e he => (h2 e he).2⟩

/-! ## Scenario A: empty weekday -/

theorem dayNumber_inj (y m d i j : Nat) :
    dayNumber y m d i = dayNumber y m d j ↔ i = j := by
  unfold dayNumber
  omega

theorem dayEvents_nil (s : String) (t : Nat) :
    dayEvents s t [] =
      [mkEvent { key := "music", title := "Música (escuchar/descargar)", minutes := 30 } s t 510,
        mkEvent { key := "nibango", title := "Nibango (deep work)", minutes := 90 } s t 555,
        mkEvent { key := "youtube", title := "YouTube (vídeo viernes)", minutes := 60 } s t 660] :=
  rfl

theorem dayEvents_nil_view (s : String) (t : Nat) :
    ((dayEvents s t []).filter (fun e => e.epochDay == t)).map
        (fun e => (e.key, e.startMin, e.endMin)) =
      [("music", 510, 540), ("nibango", 555, 645), ("youtube", 660, 720)] := by
  rw [dayEvents_nil]
  simp [mkEvent]

/-- C6: in a run whose anchor day is a weekday carrying no commitments,
the free window of that day is the full default morning [08:30, 13:00) =
[(510, 780)], and the anchor day receives exactly three blocks: music at
08:30-09:00 (510-540), nibango at 09:15-10:45 (555-645) and youtube at
11:00-12:00 (660-720). -/
theorem claim6_empty_weekday_schedule (y m d : Nat) (gigs : List Gig)
    (hweekday : 1 ≤ dayDow y m d 0 ∧ dayDow y m d 0 ≤ 5)
    (hnone : gigsFor (dayDateStr y m d 0) gigs = []) :
    ((subtractIntervals [(hmToMinutes BREAKFAST_END,
        chooseMorningEnd (mergeIntervals []) (hmToMinutes DEFAULT_END))]
        (mergeIntervals [])).filter (fun x => x.1 < x.2) = [(510, 780)]) ∧
      Except.map (fun evs => (evs.filter (fun e => e.epochDay == dayNumber y m d 0)).map
          (fun e => (e.key, e.startMin, e.endMin))) (runEvents y m d gigs) =
        Except.map (fun _ => [("music", 510, 540), ("nibango", 555, 645),
          ("youtube", 660, 720)]) (runEvents y m d gigs) := by
  refine ⟨by decide, ?_⟩
  rcases h : runEvents y m d gigs with e | evs
  · rfl
  · have hrange : List.range DAYS = 0 :: [1, 2, 3, 4, 5, 6] := by decide
    rw [runEvents, hrange, runAux] at h
    rcases hp : processDay y m d gigs 0 with e | evs0 <;> rw [hp] at h
    · cases h
    · rcases hr : runAux y m d gigs [1, 2, 3, 4, 5, 6] with e | rest <;> rw [hr] at h <;>
        simp only [combineRun] at h
      · cases h
      · cases h
        unfold processDay at hp
        rw [if_pos hweekday, hnone] at hp
        simp only [busyOfGigs] at hp
        cases hp
        have hnodup : ([1, 2, 3, 4, 5, 6] : List Nat).Pairwise (fun i j => i ≠ j) := by
          decide
        obtain ⟨-, hmemR⟩ := runAux_sound y m d gigs [1, 2, 3, 4, 5, 6] hnodup rest hr
        have hfilterR : rest.filter (fun e => e.epochDay == dayNumber y m d 0) = [] := by
          rw [List.filter_eq_nil_iff]
          intro e he
          obtain ⟨⟨j, hj, -, hd⟩, -⟩ := hmemR e he
          rw [hd]
          simp only [beq_iff_eq, dayNumber_inj]
          intro hj0
          subst hj0
          exact absurd hj (by decide)
        simp only [Except.map]
        rw [List.filter_append, List.map_append, hfilterR, dayEvents_nil_view]
        rfl

/-- Witness for C6: anchor day 2026-10-06, a Tuesday, no gigs at all. -/
theorem claim6_empty_weekday_schedule_witness :
    ((1 ≤ dayDow 2026 10 6 0 ∧ dayDow 2026 10 6 0 ≤ 5) ∧
        gigsFor (dayDateStr 2026 10 6 0) [] = []) ∧
      (((subtractIntervals [(hmToMinutes BREAKFAST_END,
          chooseMorningEnd (mergeIntervals []) (hmToMinutes DEFAULT_END))]
          (mergeIntervals [])).filter (fun x => x.1 < x.2) = [(510, 780)]) ∧
        Except.map (fun evs => (evs.filter (fun e => e.epochDay == dayNumber 2026 10 6 0)).map
            (fun e => (e.key, e.startMin, e.endMin))) (runEvents 2026 10 6 []) =
          Except.map (fun _ => [("music", 510, 540), ("nibango", 555, 645),
            ("youtube", 660, 720)]) (runEvents 2026 10 6 [])) :=
  ⟨⟨by decide, by decide⟩,
    claim6_empty_weekday_schedule 2026 10 6 [] (by decide) (by decide)⟩

/-! ## Error handling: malformed time ranges -/

theorem busyOfGigs_error (gs : List Gig) (g : Gig) (hg : g ∈ gs)
    (hbad : parseRange g.time = none) : busyOfGigs gs = .error () := by
  induction gs with
  | nil => exact absurd hg (List.not_mem_nil g)
  | cons g1 gs ih =>
    rw [busyOfGigs]
    rcases hp : parseRange g1.time with - | r
    · rfl
    · rcases List.mem_cons.1 hg with rfl | hg2
      · rw [hp] at hbad
        cases hbad
      · rw [ih hg2]

theorem processDay_error (y m d : Nat) (gigs : List Gig) (i : Nat) (g0 : Gig)
    (hmem : g0 ∈ gigs) (hdt : hasDateTime g0 = true) (hbad : parseRange g0.time = none)
    (hw : 1 ≤ dayDow y m d i ∧ dayDow y m d i ≤ 5)
    (hdate : g0.date = dayDateStr y m d i) :
    processDay y m d gigs i = .error () := by
  unfold processDay
  rw [if_pos hw]
  have hg : g0 ∈ gigsFor (dayDateStr y m d i) gigs := by
    unfold gigsFor
    rw [List.mem_filter]
    refine ⟨hmem, ?_⟩
    simp [hdt, hdate]
  rw [busyOfGigs_error _ g0 hg hbad]

theorem runAux_error (y m d : Nat) (gigs : List Gig) :
    ∀ is i, i ∈ is → processDay y m d gigs i = .error () →
      runAux y m d gigs is = .error () := by
  intro is
  induction is with
  | nil =>
    intro i hi _
    exact absurd hi (List.not_mem_nil i)
  | cons j is ih =>
    intro i hi herr
    rw [runAux]
    rcases List.mem_cons.1 hi with rfl | hi2
    · rw [herr]
      rfl
    · rcases hp : processDay y m d gigs j with e | evs0
      · rfl
      · rw [ih i hi2 herr]
        rfl

/-- C8 (amended): a run containing a commitment with present date and time
fields, whose date is one of the processed Mon-Fri day strings of the
7-day horizon and whose time string does not parse, aborts as a whole:
`runEvents` errors and no ICS text is produced for any generation
timestamp. (As frozen, the claim also covered commitments dated outside
the processed weekdays; the counterexample shows those are ignored.) -/
theorem claim8_malformed_time_aborts (y m d : Nat) (gigs : List Gig) (g0 : Gig)
    (hmem : g0 ∈ gigs) (hdt : hasDateTime g0 = true)
    (hbad : parseRange g0.time = none)
    (hdate : g0.date ∈ processedWeekdayStrs y m d) :
    runEvents y m d gigs = .error () ∧ ∀ ts, runIcs y m d gigs ts = .error () := by
  obtain ⟨i, hi, hif⟩ := List.mem_filterMap.1 hdate
  by_cases hw : 1 ≤ dayDow y m d i ∧ dayDow y m d i ≤ 5
  · rw [if_pos hw] at hif
    injection hif with hif
    have herr := processDay_error y m d gigs i g0 hmem hdt hbad hw hif.symm
    have hrun : runEvents y m d gigs = .error () :=
      runAux_error y m d gigs (List.range DAYS) i hi herr
    refine ⟨hrun, fun ts => ?_⟩
    unfold runIcs
    rw [hrun]
    rfl
  · rw [if_neg hw] at hif
    cases hif

/-- Witness for C8: anchor Monday 2026-10-05, one gig dated on the
processed Wednesday 2026-10-07 with an unparseable time. -/
theorem claim8_malformed_time_aborts_witness :
    ((⟨"2026-10-07", "garbage"⟩ : Gig) ∈ [(⟨"2026-10-07", "garbage"⟩ : Gig)] ∧
        hasDateTime ⟨"2026-10-07", "garbage"⟩ = true ∧
        parseRange (Gig.time ⟨"2026-10-07", "garbage"⟩) = none ∧
        Gig.date ⟨"2026-10-07", "garbage"⟩ ∈ processedWeekdayStrs 2026 10 5) ∧
      (runEvents 2026 10 5 [⟨"2026-10-07", "garbage"⟩] = .error () ∧
        ∀ ts, runIcs 2026 10 5 [⟨"2026-10-07", "garbage"⟩] ts = .error ()) :=
  ⟨⟨by decide, by decide, by decide, by decide⟩,
    claim8_malformed_time_aborts 2026 10 5 [⟨"2026-10-07", "garbage"⟩]
      ⟨"2026-10-07", "garbage"⟩ (by decide) (by decide) (by decide) (by decide)⟩

/-- C8 counterexample: a run containing a commitment with an unparseable
time string dated on a Saturday (2026-10-10, within the 7-day horizon of
anchor Monday 2026-10-05) succeeds: the claim as frozen, which makes any
unparseable commitment fatal, is false on the code. -/
theorem claim8_counterexample :
    hasDateTime ⟨"2026-10-10", "garbage"⟩ = true ∧
      parseRange (Gig.time ⟨"2026-10-10", "garbage"⟩) = none ∧
      (runEvents 2026 10 5 [⟨"2026-10-10", "garbage"⟩]).isOk = true := by
  refine ⟨by decide, by decide, ?_⟩
  rfl

/-! ## Out-of-scope commitments are never parsed -/

theorem runAux_congr (y m d : Nat) (g1 g2 : List Gig) :
    ∀ is : List Nat, (∀ i ∈ is, processDay y m d g1 i = processDay y m d g2 i) →
      runAux y m d g1 is = runAux y m d g2 is := by
  intro is
  induction is with
  | nil => intro _; rfl
  | cons j is ih =>
    intro h
    rw [runAux, runAux, h j (List.mem_cons_self j is),
      ih (fun i hi => h i (List.mem_cons_of_mem j hi))]

/-- C10: the run reads commitments only through the per-day lookups of the
Mon-Fri days among the 7 days from the anchor, so a commitment without
date/time fields, or dated outside those processed weekday dates (on a
weekend or outside the horizon), never reaches the time parser: removing
it leaves the whole run - including whether it aborts - unchanged. -/
theorem claim10_irrelevant_gig_ignored (y m d : Nat) (pre post : List Gig) (g0 : Gig)
    (h : hasDateTime g0 = false ∨ g0.date ∉ processedWeekdayStrs y m d) :
    runEvents y m d (pre ++ g0 :: post) = runEvents y m d (pre ++ post) := by
  unfold runEvents
  apply runAux_congr
  intro i hi
  unfold processDay
  by_cases hw : 1 ≤ dayDow y m d i ∧ dayDow y m d i ≤ 5
  · rw [if_pos hw, if_pos hw]
    have hpred : (hasDateTime g0 && (g0.date == dayDateStr y m d i)) = false := by
      rcases h with h | h
      · rw [h]
        rfl
      · have hne : g0.date ≠ dayDateStr y m d i := by
          intro heq
          apply h
          rw [heq]
          exact List.mem_filterMap.2 ⟨i, hi, by rw [if_pos hw]⟩
        simp [hne]
    have hgf : gigsFor (dayDateStr y m d i) (pre ++ g0 :: post) =
        gigsFor (dayDateStr y m d i) (pre ++ post) := by
      unfold gigsFor
      rw [List.filter_append, List.filter_append, List.filter_cons, hpred]
      rfl
    rw [hgf]
  · rw [if_neg hw, if_neg hw]

/-- Witness for C10: removing a gig dated on the Saturday of the horizon
(with an unparseable time, even) does not change the run. -/
theorem claim10_irrelevant_gig_ignored_witness :
    (hasDateTime (⟨"2026-10-10", "garbage"⟩ : Gig) = false ∨
        Gig.date (⟨"2026-10-10", "garbage"⟩ : Gig) ∉ processedWeekdayStrs 2026 10 5) ∧
      runEvents 2026 10 5 ([] ++ (⟨"2026-10-10", "garbage"⟩ : Gig) :: []) =
        runEvents 2026 10 5 ([] ++ []) :=
  ⟨Or.inr (by decide),
    claim10_irrelevant_gig_ignored 2026 10 5 [] [] ⟨"2026-10-10", "garbage"⟩
      (Or.inr (by decide))⟩

/-! ## Serialization and idempotence -/

theorem eventTemplate_inst (ev : Event) (ts : String) :
    (eventTemplate ev).map (instLine ts) = eventLines ev ts :=
  rfl

theorem flatMap_template_inst (evs : List Event) (ts : String) :
    (evs.flatMap eventTemplate).map (instLine ts) =
      evs.flatMap (fun ev => eventLines ev ts) := by
  induction evs with
  | nil => rfl
  | cons ev rest ih =>
    rw [List.flatMap_cons, List.flatMap_cons, List.map_append, ih, eventTemplate_inst]

/-- C7 (amended): the serializer output is a deterministic function of the
event list and the generation timestamp: with equal timestamps a re-run is
byte-for-byte identical, and for any timestamp the line list is the
instantiation of `icsTemplate`, a timestamp-independent template in which
only the per-event DTSTAMP lines mention the timestamp - so the stable
identifiers (UID lines) and the field order of two runs over the same
input agree even across different timestamps. -/
theorem claim7_deterministic_output (y m d : Nat) (gigs : List Gig) (ts1 ts2 : String) :
    (ts1 = ts2 → runIcs y m d gigs ts1 = runIcs y m d gigs ts2) ∧
      ∀ evs, buildIcsLines evs ts1 = (icsTemplate evs).map (instLine ts1) := by
  constructor
  · intro h
    rw [h]
  · intro evs
    unfold buildIcsLines icsTemplate
    rw [List.map_append, List.map_append, flatMap_template_inst, List.map_map]
    rfl

/-- C7 counterexample: two runs over the same input document at different
generation instants produce different bytes (the DTSTAMP lines differ), so
the claim of unconditional byte-for-byte identical output is false. -/
theorem claim7_counterexample :
    runIcs 2026 10 6 [] "20261006T000000Z" ≠ runIcs 2026 10 6 [] "20261006T000001Z" := by
  decide
